import Mathlib

/-!
Shallow embedding of `heredity.py`, a brute-force exact-inference routine
computing per-person posterior distributions over gene counts and trait
expression in a small pedigree.

Python floats are modelled by exact rationals (`ℚ`); Python sets of names by
`Finset String` (with the lists returned by `powerset` modelled by lists of
lists, converted to `Finset`s at the use sites, exactly as the sets flow
through `main`); Python dictionaries keyed by person name by functions
`String → _`.  All definitions are translated from the source file; per-claim
theorems follow at the end.
-/

namespace Heredity

abbrev Name := String

/-- One row of the `people` dictionary built by `load_data`: a person's name,
optional mother and father names, and the optional observed trait value. -/
structure Person where
  name : Name
  mother : Option Name
  father : Option Name
  trait : Option Bool
deriving DecidableEq, Repr

/-- The table `PROBS["gene"]`: unconditional prior over gene counts.
Keys other than 0, 1, 2 are absent from the Python dict; the catch-all
branch is unreachable at every call site because `get_number_genes` only
returns 0, 1 or 2. -/
def PROBS_gene : ℕ → ℚ
  | 0 => 96/100
  | 1 => 3/100
  | 2 => 1/100
  | _ => 0

/-- The table `PROBS["trait"]`: probability of showing (`true`) or not
showing (`false`) the trait, given the gene count.  The catch-all branch is
unreachable for the same reason as in `PROBS_gene`. -/
def PROBS_trait : ℕ → Bool → ℚ
  | 2, true => 65/100
  | 2, false => 35/100
  | 1, true => 56/100
  | 1, false => 44/100
  | 0, true => 1/100
  | 0, false => 99/100
  | _, _ => 0

/-- The constant `PROBS["mutation"]`. -/
def PROBS_mutation : ℚ := 1/100

/-- Python membership test `x in s` where `x` may be `None`: in Python,
`None in s` is `False` for a set `s` of strings, since `None` compares
unequal to every string. -/
def optMem (x : Option Name) (s : Finset Name) : Bool :=
  match x with
  | none => false
  | some n => decide (n ∈ s)

/-- The function `get_number_genes(person, one_gene, two_genes)`.  The
`person` argument is a name or (at the parent call sites of
`joint_probability`) possibly `None`. -/
def get_number_genes (person : Option Name) (one_gene two_genes : Finset Name) : ℕ :=
  if optMem person one_gene then 1
  else if optMem person two_genes then 2
  else 0

/-- The function `prob_of_passing(numGenes)`. -/
def prob_of_passing (numGenes : ℕ) : ℚ :=
  if numGenes = 0 then PROBS_mutation
  else if numGenes = 1 then (1 : ℚ)/2
  else 1 - PROBS_mutation

/-- The gene-count factor `probGenes` computed for one person inside the
loop body of `joint_probability`.  The three separate `if` statements of the
source are exclusive (they test `ownGenes == 0/1/2`), so the chained `if`
below computes the same value at every reachable input. -/
def personGeneProb (p : Person) (one_gene two_genes : Finset Name) : ℚ :=
  if p.mother = none ∧ p.father = none then
    PROBS_gene (get_number_genes (some p.name) one_gene two_genes)
  else
    if get_number_genes (some p.name) one_gene two_genes = 0 then
      (1 - prob_of_passing (get_number_genes p.father one_gene two_genes)) *
        (1 - prob_of_passing (get_number_genes p.mother one_gene two_genes))
    else if get_number_genes (some p.name) one_gene two_genes = 1 then
      prob_of_passing (get_number_genes p.mother one_gene two_genes) *
          (1 - prob_of_passing (get_number_genes p.father one_gene two_genes)) +
        prob_of_passing (get_number_genes p.father one_gene two_genes) *
          (1 - prob_of_passing (get_number_genes p.mother one_gene two_genes))
    else
      prob_of_passing (get_number_genes p.mother one_gene two_genes) *
        prob_of_passing (get_number_genes p.father one_gene two_genes)

/-- The trait factor `probTrait` computed for one person inside the loop
body of `joint_probability`. -/
def personTraitProb (p : Person) (one_gene two_genes have_trait : Finset Name) : ℚ :=
  if p.name ∈ have_trait then
    PROBS_trait (get_number_genes (some p.name) one_gene two_genes) true
  else
    PROBS_trait (get_number_genes (some p.name) one_gene two_genes) false

/-- The function `joint_probability(people, one_gene, two_genes, have_trait)`:
starting from `probJoint = 1`, multiply in `probGenes * probTrait` for every
person of the population dictionary. -/
def joint_probability (people : List Person) (one_gene two_genes have_trait : Finset Name) : ℚ :=
  people.foldl
    (fun probJoint p =>
      probJoint * (personGeneProb p one_gene two_genes *
        personTraitProb p one_gene two_genes have_trait))
    1

/-- One person's entry of the `probabilities` dictionary of `main`: the
running totals for the gene-count buckets 2, 1, 0 and the trait buckets
`True`, `False`. -/
structure Dist where
  gene0 : ℚ
  gene1 : ℚ
  gene2 : ℚ
  traitT : ℚ
  traitF : ℚ
deriving DecidableEq, Repr

/-- The all-zero entry each person starts from in `main`. -/
def initDist : Dist := ⟨0, 0, 0, 0, 0⟩

/-- The loop body of `update` for a single person: add `p` to the gene
bucket selected by `get_number_genes` and to the trait bucket selected by
membership in `have_trait`. -/
def updateDist (n : Name) (one_gene two_genes have_trait : Finset Name) (p : ℚ)
    (d : Dist) : Dist :=
  { gene0 := if get_number_genes (some n) one_gene two_genes = 0 then d.gene0 + p else d.gene0
    gene1 := if get_number_genes (some n) one_gene two_genes = 1 then d.gene1 + p else d.gene1
    gene2 := if get_number_genes (some n) one_gene two_genes = 2 then d.gene2 + p else d.gene2
    traitT := if n ∈ have_trait then d.traitT + p else d.traitT
    traitF := if n ∈ have_trait then d.traitF else d.traitF + p }

/-- The function `update(probabilities, one_gene, two_genes, have_trait, p)`:
every key of the probabilities dictionary (= every person name of the
population) gets its entry updated by `updateDist`. -/
def update (probs : Name → Dist) (keys : List Name)
    (one_gene two_genes have_trait : Finset Name) (p : ℚ) : Name → Dist :=
  fun n =>
    if n ∈ keys then updateDist n one_gene two_genes have_trait p (probs n)
    else probs n

/-- The divisor used by `normalize` for the gene dict (whose keys are, in
insertion order, 2, 1, 0): `np.sum(list(p.values()))`. -/
def geneTotal (d : Dist) : ℚ := d.gene2 + d.gene1 + d.gene0

/-- The divisor used by `normalize` for the trait dict (keys `True`,
`False`). -/
def traitTotal (d : Dist) : ℚ := d.traitT + d.traitF

/-- The function `norm_dict` inside `normalize`, applied to both of a
person's distributions. -/
def norm_dist (d : Dist) : Dist :=
  { gene0 := d.gene0 / geneTotal d
    gene1 := d.gene1 / geneTotal d
    gene2 := d.gene2 / geneTotal d
    traitT := d.traitT / traitTotal d
    traitF := d.traitF / traitTotal d }

/-- The function `normalize(probabilities)`: every key of the dictionary
gets both of its distributions normalized. -/
def normalizeAll (keys : List Name) (probs : Name → Dist) : Name → Dist :=
  fun n => if n ∈ keys then norm_dist (probs n) else probs n

/-- The function `powerset(s)`: `itertools.combinations(s, r)` lists the
length-`r` subsequences of the list `list(s)`, and `r` ranges over
`0 … len(s)`; chaining them lists every subsequence, grouped by size. -/
def powersetL (l : List Name) : List (List Name) :=
  (List.range (l.length + 1)).flatMap fun r => List.sublistsLen r l

/-- The list of keys of the `people` dictionary (its iteration order). -/
def namesList (people : List Person) : List Name := people.map Person.name

/-- The `fails_evidence` test of `main`: some person has a recorded trait
value that disagrees with membership in the candidate `have_trait` set. -/
def fails_evidence (people : List Person) (have_trait : Finset Name) : Bool :=
  people.any fun p =>
    match p.trait with
    | none => false
    | some b => b != decide (p.name ∈ have_trait)

/-- The hypotheses examined by the nested loops of `main`, in order: every
candidate `have_trait` subset that passes the evidence check (`continue`
skips the rest), then every `one_gene` subset, then every `two_genes`
subset of `names - one_gene`.  Each entry is
`(one_gene, two_genes, have_trait)` as `Finset`s. -/
def hypothesesList (people : List Person) :
    List (Finset Name × Finset Name × Finset Name) :=
  (powersetL (namesList people)).flatMap fun ht =>
    if fails_evidence people ht.toFinset then []
    else
      (powersetL (namesList people)).flatMap fun og =>
        (powersetL ((namesList people).filter fun n => !decide (n ∈ og.toFinset))).map
          fun tg => (og.toFinset, tg.toFinset, ht.toFinset)

/-- The accumulation loop of `main`: starting from the all-zero dictionary,
process a list of hypotheses, each time adding its joint probability via
`update`. -/
def accumulate (people : List Person)
    (hyps : List (Finset Name × Finset Name × Finset Name)) : Name → Dist :=
  hyps.foldl
    (fun probs hyp =>
      update probs (namesList people) hyp.1 hyp.2.1 hyp.2.2
        (joint_probability people hyp.1 hyp.2.1 hyp.2.2))
    (fun _ => initDist)

/-- The accumulated (pre-normalization) dictionary produced by `main`'s
triple loop. -/
def runAccumulate (people : List Person) : Name → Dist :=
  accumulate people (hypothesesList people)

/-- The final dictionary printed by `main`: accumulate, then normalize
exactly once. -/
def finalProbs (people : List Person) : Name → Dist :=
  normalizeAll (namesList people) (runAccumulate people)

/-- The total joint probability mass examined by `main`'s loops: the sum of
`joint_probability` over exactly the hypotheses that are enumerated and
scored (the trait-evidence filter is part of `hypothesesList`). -/
def enumerated_joint_sum (people : List Person) : ℚ :=
  ((hypothesesList people).map fun hyp =>
    joint_probability people hyp.1 hyp.2.1 hyp.2.2).sum

/-- The `(one_gene, two_genes)` pairs enumerated by the two inner loops of
`main` for one fixed trait hypothesis. -/
def geneSplits (l : List Name) : List (Finset Name × Finset Name) :=
  (powersetL l).flatMap fun og =>
    (powersetL (l.filter fun n => !decide (n ∈ og.toFinset))).map
      fun tg => (og.toFinset, tg.toFinset)

/-- Accessor for the two trait buckets of an accumulator entry. -/
def traitBucket (d : Dist) (b : Bool) : ℚ := if b then d.traitT else d.traitF

/-! ### Basic lemmas about the evaluator -/

theorem foldl_mul_eq_prod (f : Person → ℚ) :
    ∀ (l : List Person) (a : ℚ), l.foldl (fun x p => x * f p) a = a * (l.map f).prod
  | [], a => by simp
  | p :: l, a => by
    rw [List.foldl_cons, foldl_mul_eq_prod f l (a * f p), List.map_cons, List.prod_cons]
    ring

theorem joint_eq_prod (people : List Person) (o t h : Finset Name) :
    joint_probability people o t h =
      (people.map fun p => personGeneProb p o t * personTraitProb p o t h).prod := by
  unfold joint_probability
  rw [foldl_mul_eq_prod, one_mul]

theorem joint_nil (o t h : Finset Name) : joint_probability [] o t h = 1 := rfl

theorem joint_cons (q : Person) (rest : List Person) (o t h : Finset Name) :
    joint_probability (q :: rest) o t h =
      personGeneProb q o t * personTraitProb q o t h * joint_probability rest o t h := by
  rw [joint_eq_prod, List.map_cons, List.prod_cons, joint_eq_prod]

theorem get_number_genes_cases (x : Option Name) (o t : Finset Name) :
    get_number_genes x o t = 0 ∨ get_number_genes x o t = 1 ∨ get_number_genes x o t = 2 := by
  unfold get_number_genes
  split_ifs <;> simp

theorem get_number_genes_le_two (x : Option Name) (o t : Finset Name) :
    get_number_genes x o t ≤ 2 := by
  rcases get_number_genes_cases x o t with h | h | h <;> omega

theorem get_number_genes_none (o t : Finset Name) : get_number_genes none o t = 0 := rfl

theorem PROBS_trait_row_sum {c : ℕ} (hc : c ≤ 2) :
    PROBS_trait c true + PROBS_trait c false = 1 := by
  interval_cases c <;> norm_num [PROBS_trait]

theorem PROBS_trait_pos {c : ℕ} (hc : c ≤ 2) (b : Bool) : 0 < PROBS_trait c b := by
  interval_cases c <;> cases b <;> norm_num [PROBS_trait]

theorem PROBS_gene_pos {c : ℕ} (hc : c ≤ 2) : 0 < PROBS_gene c := by
  interval_cases c <;> norm_num [PROBS_gene]

theorem prob_of_passing_pos (n : ℕ) : 0 < prob_of_passing n := by
  unfold prob_of_passing PROBS_mutation
  split_ifs <;> norm_num

theorem prob_of_passing_lt_one (n : ℕ) : prob_of_passing n < 1 := by
  unfold prob_of_passing PROBS_mutation
  split_ifs <;> norm_num

theorem personGeneProb_pos (p : Person) (o t : Finset Name) :
    0 < personGeneProb p o t := by
  have hf0 := prob_of_passing_pos (get_number_genes p.father o t)
  have hm0 := prob_of_passing_pos (get_number_genes p.mother o t)
  have hf1 := prob_of_passing_lt_one (get_number_genes p.father o t)
  have hm1 := prob_of_passing_lt_one (get_number_genes p.mother o t)
  unfold personGeneProb
  split_ifs
  · exact PROBS_gene_pos (get_number_genes_le_two _ _ _)
  · nlinarith
  · nlinarith
  · nlinarith

theorem personTraitProb_pos (p : Person) (o t h : Finset Name) :
    0 < personTraitProb p o t h := by
  unfold personTraitProb
  split_ifs <;> exact PROBS_trait_pos (get_number_genes_le_two _ _ _) _

theorem joint_probability_pos (people : List Person) (o t h : Finset Name) :
    0 < joint_probability people o t h := by
  rw [joint_eq_prod]
  apply List.prod_pos
  intro a ha
  obtain ⟨p, _, rfl⟩ := List.mem_map.1 ha
  exact mul_pos (personGeneProb_pos p o t) (personTraitProb_pos p o t h)

/-! ### The powerset enumerator -/

theorem powersetL_perm (l : List Name) : List.Perm (powersetL l) l.sublists' :=
  List.range_bind_sublistsLen_perm l

theorem mem_powersetL {s l : List Name} : s ∈ powersetL l ↔ List.Sublist s l := by
  rw [(powersetL_perm l).mem_iff, List.mem_sublists']

theorem length_powersetL (l : List Name) : (powersetL l).length = 2 ^ l.length := by
  rw [(powersetL_perm l).length_eq, List.length_sublists']

theorem nodup_powersetL {l : List Name} (hl : l.Nodup) : (powersetL l).Nodup :=
  (powersetL_perm l).nodup_iff.2 (List.nodup_sublists'.2 hl)

theorem filter_mem_of_sublist :
    ∀ {s l : List Name}, List.Sublist s l → l.Nodup →
      (l.filter fun a => decide (a ∈ s)) = s := by
  intro s l hs hl
  induction hs with
  | slnil => rfl
  | cons a hs ih =>
    rename_i s' l'
    have hal : a ∉ l' := (List.nodup_cons.1 hl).1
    have has : a ∉ s' := fun h => hal (hs.subset h)
    rw [List.filter_cons]
    simp only [has, decide_eq_true_eq, if_neg]
    exact ih (List.nodup_cons.1 hl).2
  | cons₂ a hs ih =>
    rename_i s' l'
    have hal : a ∉ l' := (List.nodup_cons.1 hl).1
    have hcongr : (l'.filter fun x => decide (x ∈ a :: s')) =
        l'.filter fun x => decide (x ∈ s') := by
      apply List.filter_congr
      intro x hx
      have hxa : x ≠ a := fun hxe => hal (hxe ▸ hx)
      simp [List.mem_cons, hxa]
    rw [List.filter_cons, if_pos (by simp), hcongr, ih (List.nodup_cons.1 hl).2]

theorem toFinset_injOn_powersetL {l : List Name} (hl : l.Nodup) :
    ∀ s₁ ∈ powersetL l, ∀ s₂ ∈ powersetL l, s₁.toFinset = s₂.toFinset → s₁ = s₂ := by
  intro s₁ h₁ s₂ h₂ he
  have e₁ := filter_mem_of_sublist (mem_powersetL.1 h₁) hl
  have e₂ := filter_mem_of_sublist (mem_powersetL.1 h₂) hl
  rw [← e₁, ← e₂]
  apply List.filter_congr
  intro x _
  have : x ∈ s₁ ↔ x ∈ s₂ := by
    rw [← List.mem_toFinset, ← List.mem_toFinset, he]
  simp [this]

theorem nodup_powersetL_toFinset {l : List Name} (hl : l.Nodup) :
    ((powersetL l).map List.toFinset).Nodup :=
  List.Nodup.map_on (toFinset_injOn_powersetL hl) (nodup_powersetL hl)

theorem mem_powersetL_toFinset {l : List Name} {s : Finset Name} :
    s ∈ (powersetL l).map List.toFinset ↔ s ⊆ l.toFinset := by
  constructor
  · intro h
    obtain ⟨s', hs', rfl⟩ := List.mem_map.1 h
    intro a ha
    exact List.mem_toFinset.2 ((mem_powersetL.1 hs').subset (List.mem_toFinset.1 ha))
  · intro hs
    refine List.mem_map.2 ⟨l.filter fun a => decide (a ∈ s),
      mem_powersetL.2 (List.filter_sublist l), ?_⟩
    ext a
    simp only [List.mem_toFinset, List.mem_filter, decide_eq_true_eq]
    exact ⟨fun h => h.2, fun h => ⟨List.mem_toFinset.1 (hs h), h⟩⟩

theorem powersetL_toFinset_eq (l : List Name) :
    ((powersetL l).map List.toFinset).toFinset = l.toFinset.powerset := by
  ext s
  rw [List.mem_toFinset, mem_powersetL_toFinset, Finset.mem_powerset]

/-- Transfer of a sum over the enumerated subset list to a `Finset.powerset`
sum: for a duplicate-free input, `powerset` yields each subset exactly once. -/
theorem sum_powersetL {l : List Name} (hl : l.Nodup) (f : Finset Name → ℚ) :
    ((powersetL l).map fun s => f s.toFinset).sum = ∑ s ∈ l.toFinset.powerset, f s := by
  have h1 : ((powersetL l).map fun s => f s.toFinset) =
      ((powersetL l).map List.toFinset).map f := by
    rw [List.map_map]; rfl
  rw [h1, ← List.sum_toFinset f (nodup_powersetL_toFinset hl), powersetL_toFinset_eq]

theorem sum_flatMapM {α : Type} {M : Type} [AddMonoid M] (l : List α) (f : α → List M) :
    (l.flatMap f).sum = (l.map fun a => (f a).sum).sum := by
  rw [List.flatMap, List.sum_flatten, List.map_map]
  rfl

theorem toFinset_filter_not_mem (l : List Name) (s : Finset Name) :
    (l.filter fun n => !decide (n ∈ s)).toFinset = l.toFinset \ s := by
  rw [List.toFinset_filter, Finset.sdiff_eq_filter]
  apply Finset.filter_congr
  intro x _
  simp

theorem length_filter_not_mem {og l : List Name} (hs : List.Sublist og l) (hl : l.Nodup) :
    (l.filter fun n => !decide (n ∈ og.toFinset)).length = l.length - og.length := by
  have hp : (l.filter fun n => !decide (n ∈ og.toFinset)) =
      l.filter fun n => !decide (n ∈ og) := by
    apply List.filter_congr
    intro x _
    simp [List.mem_toFinset]
  have h2 := List.length_eq_countP_add_countP (fun a => decide (a ∈ og)) l
  rw [List.countP_eq_length_filter, List.countP_eq_length_filter,
    filter_mem_of_sublist hs hl] at h2
  have h3 : (l.filter fun a => decide (¬decide (a ∈ og) = true)) =
      l.filter fun n => !decide (n ∈ og) := by
    apply List.filter_congr
    intro x _
    simp
  rw [hp, ← h3]
  omega

theorem exists_powersetL_rep {l : List Name} {s : Finset Name} (hs : s ⊆ l.toFinset) :
    ∃ s' ∈ powersetL l, s'.toFinset = s :=
  List.mem_map.1 (mem_powersetL_toFinset.2 hs)

theorem mem_geneSplits {l : List Name} {o t : Finset Name} :
    (o, t) ∈ geneSplits l ↔ o ⊆ l.toFinset ∧ t ⊆ l.toFinset \ o := by
  unfold geneSplits
  rw [List.mem_flatMap]
  constructor
  · rintro ⟨og, hog, hmem⟩
    obtain ⟨tg, htg, heq⟩ := List.mem_map.1 hmem
    have h1 : og.toFinset = o := congrArg Prod.fst heq
    have h2 : tg.toFinset = t := congrArg Prod.snd heq
    subst h1
    subst h2
    refine ⟨fun a ha => List.mem_toFinset.2
      ((mem_powersetL.1 hog).subset (List.mem_toFinset.1 ha)), ?_⟩
    intro a ha
    rw [← toFinset_filter_not_mem l og.toFinset]
    exact List.mem_toFinset.2 ((mem_powersetL.1 htg).subset (List.mem_toFinset.1 ha))
  · rintro ⟨ho, ht⟩
    obtain ⟨og, hog, hogF⟩ := exists_powersetL_rep ho
    have ht' : t ⊆ (l.filter fun n => !decide (n ∈ og.toFinset)).toFinset := by
      rw [toFinset_filter_not_mem, hogF]
      exact ht
    obtain ⟨tg, htg, htgF⟩ := exists_powersetL_rep ht'
    exact ⟨og, hog, List.mem_map.2 ⟨tg, htg, by rw [hogF, htgF]⟩⟩

theorem nodup_geneSplits {l : List Name} (hl : l.Nodup) : (geneSplits l).Nodup := by
  unfold geneSplits
  rw [List.nodup_flatMap]
  refine ⟨fun og hog => ?_, ?_⟩
  · apply List.Nodup.map_on
    · intro t1 h1 t2 h2 he
      exact toFinset_injOn_powersetL (List.Nodup.filter _ hl) t1 h1 t2 h2
        (congrArg Prod.snd he)
    · exact nodup_powersetL (List.Nodup.filter _ hl)
  · apply List.Pairwise.imp_of_mem ?_ (nodup_powersetL hl)
    intro a b ha hb hne
    rw [Function.onFun, List.disjoint_left]
    intro x hxa hxb
    obtain ⟨t1, _, rfl⟩ := List.mem_map.1 hxa
    obtain ⟨t2, _, h2⟩ := List.mem_map.1 hxb
    exact hne (toFinset_injOn_powersetL hl a ha b hb (congrArg Prod.fst h2).symm)

theorem list_range_map_sum (m : ℕ) (f : ℕ → ℕ) :
    ((List.range m).map f).sum = ∑ r ∈ Finset.range m, f r := by
  induction m with
  | zero => simp
  | succ k ih =>
    rw [List.range_succ, List.map_append, List.sum_append, Finset.sum_range_succ, ih]
    simp

theorem length_geneSplits {l : List Name} (hl : l.Nodup) :
    (geneSplits l).length = 3 ^ l.length := by
  unfold geneSplits
  rw [List.length_flatMap]
  have h1 : ((powersetL l).map
        (List.length ∘ fun og =>
          (powersetL (l.filter fun n => !decide (n ∈ og.toFinset))).map
            fun tg => (og.toFinset, tg.toFinset))) =
      (powersetL l).map fun og => 2 ^ (l.length - og.length) := by
    apply List.map_congr_left
    intro og hog
    simp only [Function.comp_apply, List.length_map, length_powersetL]
    rw [length_filter_not_mem (mem_powersetL.1 hog) hl]
  rw [h1]
  unfold powersetL
  rw [List.map_flatMap, sum_flatMapM]
  have h2 : ((List.range (l.length + 1)).map fun r =>
        (((List.sublistsLen r l).map fun og => 2 ^ (l.length - og.length)).sum)) =
      (List.range (l.length + 1)).map fun r => l.length.choose r * 2 ^ (l.length - r) := by
    apply List.map_congr_left
    intro r _
    have h3 : ((List.sublistsLen r l).map fun og => 2 ^ (l.length - og.length)) =
        (List.sublistsLen r l).map fun _ => 2 ^ (l.length - r) := by
      apply List.map_congr_left
      intro og hog
      rw [(List.mem_sublistsLen.1 hog).2]
    rw [h3, List.map_const', List.sum_replicate, List.length_sublistsLen, smul_eq_mul]
  rw [h2, list_range_map_sum]
  have h4 := add_pow (1 : ℕ) 2 l.length
  simp only [one_pow, one_mul, Nat.cast_id] at h4
  have h5 : (1 + 2 : ℕ) = 3 := rfl
  rw [h5] at h4
  rw [h4]
  apply Finset.sum_congr rfl
  intro r _
  ring

/-! ### The accumulator -/

theorem geneTotal_updateDist (n : Name) (o t h : Finset Name) (p : ℚ) (d : Dist) :
    geneTotal (updateDist n o t h p d) = geneTotal d + p := by
  rcases get_number_genes_cases (some n) o t with hc | hc | hc <;>
    simp [updateDist, geneTotal, hc] <;> ring

theorem traitTotal_updateDist (n : Name) (o t h : Finset Name) (p : ℚ) (d : Dist) :
    traitTotal (updateDist n o t h p d) = traitTotal d + p := by
  by_cases hm : n ∈ h <;> simp [updateDist, traitTotal, hm] <;> ring

theorem geneTotal_accumulate_aux (people : List Person) (n : Name)
    (hn : n ∈ namesList people) :
    ∀ (hyps : List (Finset Name × Finset Name × Finset Name)) (probs : Name → Dist),
      geneTotal
        ((hyps.foldl
          (fun probs hyp =>
            update probs (namesList people) hyp.1 hyp.2.1 hyp.2.2
              (joint_probability people hyp.1 hyp.2.1 hyp.2.2))
          probs) n) =
      geneTotal (probs n) +
        (hyps.map fun hyp => joint_probability people hyp.1 hyp.2.1 hyp.2.2).sum
  | [], probs => by simp
  | hyp :: hyps, probs => by
    rw [List.foldl_cons, geneTotal_accumulate_aux people n hn hyps, List.map_cons,
      List.sum_cons]
    unfold update
    rw [if_pos hn, geneTotal_updateDist]
    ring

theorem traitTotal_accumulate_aux (people : List Person) (n : Name)
    (hn : n ∈ namesList people) :
    ∀ (hyps : List (Finset Name × Finset Name × Finset Name)) (probs : Name → Dist),
      traitTotal
        ((hyps.foldl
          (fun probs hyp =>
            update probs (namesList people) hyp.1 hyp.2.1 hyp.2.2
              (joint_probability people hyp.1 hyp.2.1 hyp.2.2))
          probs) n) =
      traitTotal (probs n) +
        (hyps.map fun hyp => joint_probability people hyp.1 hyp.2.1 hyp.2.2).sum
  | [], probs => by simp
  | hyp :: hyps, probs => by
    rw [List.foldl_cons, traitTotal_accumulate_aux people n hn hyps, List.map_cons,
      List.sum_cons]
    unfold update
    rw [if_pos hn, traitTotal_updateDist]
    ring

theorem geneTotal_accumulate (people : List Person)
    (hyps : List (Finset Name × Finset Name × Finset Name)) (n : Name)
    (hn : n ∈ namesList people) :
    geneTotal (accumulate people hyps n) =
      (hyps.map fun hyp => joint_probability people hyp.1 hyp.2.1 hyp.2.2).sum := by
  unfold accumulate
  rw [geneTotal_accumulate_aux people n hn hyps]
  simp [initDist, geneTotal]

theorem traitTotal_accumulate (people : List Person)
    (hyps : List (Finset Name × Finset Name × Finset Name)) (n : Name)
    (hn : n ∈ namesList people) :
    traitTotal (accumulate people hyps n) =
      (hyps.map fun hyp => joint_probability people hyp.1 hyp.2.1 hyp.2.2).sum := by
  unfold accumulate
  rw [traitTotal_accumulate_aux people n hn hyps]
  simp [initDist, traitTotal]

/-- A hypothesis that survived the evidence check assigns each observed
person exactly their recorded trait value. -/
theorem evidence_match {people : List Person} {h : Finset Name} {p : Person} {b : Bool}
    (hf : fails_evidence people h = false) (hp : p ∈ people) (hb : p.trait = some b) :
    decide (p.name ∈ h) = b := by
  unfold fails_evidence at hf
  rw [List.any_eq_false] at hf
  have := hf p hp
  rw [hb] at this
  have h2 : b = decide (p.name ∈ h) := by simpa [bne] using this
  exact h2.symm

theorem traitBucket_foldl_opposite (people : List Person) (p : Person) (hp : p ∈ people)
    (b : Bool) (hb : p.trait = some b) :
    ∀ (hyps : List (Finset Name × Finset Name × Finset Name)) (probs : Name → Dist),
      (∀ hyp ∈ hyps, fails_evidence people hyp.2.2 = false) →
      traitBucket
        ((hyps.foldl
          (fun probs hyp =>
            update probs (namesList people) hyp.1 hyp.2.1 hyp.2.2
              (joint_probability people hyp.1 hyp.2.1 hyp.2.2))
          probs) p.name) (!b) =
      traitBucket (probs p.name) (!b)
  | [], probs, _ => rfl
  | hyp :: hyps, probs, hpass => by
    rw [List.foldl_cons,
      traitBucket_foldl_opposite people p hp b hb hyps _
        (fun x hx => hpass x (List.mem_cons_of_mem hyp hx))]
    have hmatch := evidence_match (hpass hyp (List.mem_cons_self hyp hyps)) hp hb
    unfold update
    rw [if_pos (show p.name ∈ namesList people from List.mem_map.2 ⟨p, hp, rfl⟩)]
    cases b with
    | true =>
      have hmem : p.name ∈ hyp.2.2 := by simpa using hmatch
      simp [updateDist, traitBucket, hmem]
    | false =>
      have hmem : p.name ∉ hyp.2.2 := by simpa using hmatch
      simp [updateDist, traitBucket, hmem]

/-! ### Total probability: summing the joint probability over all hypotheses

The joint probability of one hypothesis is a product of per-person factors.
A person's factor reads only the memberships of that person's own name and
of their parents' names; inserting an unrelated name into any of the three
hypothesis sets leaves the factor unchanged.  Summing out one person whose
name does not occur as anyone's parent then telescopes the triple powerset
sum, because the prior rows, the transmission formula and the trait rows
each sum to 1. -/

theorem get_number_genes_insert_one {x : Option Name} {a : Name} (hx : x ≠ some a)
    (o t : Finset Name) :
    get_number_genes x (insert a o) t = get_number_genes x o t := by
  cases x with
  | none => rfl
  | some n =>
    have hna : n ≠ a := fun he => hx (by rw [he])
    simp [get_number_genes, optMem, Finset.mem_insert, hna]

theorem get_number_genes_insert_two {x : Option Name} {a : Name} (hx : x ≠ some a)
    (o t : Finset Name) :
    get_number_genes x o (insert a t) = get_number_genes x o t := by
  cases x with
  | none => rfl
  | some n =>
    have hna : n ≠ a := fun he => hx (by rw [he])
    simp [get_number_genes, optMem, Finset.mem_insert, hna]

theorem personGeneProb_insert_one {p : Person} {a : Name} (h1 : p.name ≠ a)
    (h2 : p.mother ≠ some a) (h3 : p.father ≠ some a) (o t : Finset Name) :
    personGeneProb p (insert a o) t = personGeneProb p o t := by
  unfold personGeneProb
  rw [get_number_genes_insert_one (fun he => h1 (Option.some.inj he)) o t,
    get_number_genes_insert_one h3 o t, get_number_genes_insert_one h2 o t]

theorem personGeneProb_insert_two {p : Person} {a : Name} (h1 : p.name ≠ a)
    (h2 : p.mother ≠ some a) (h3 : p.father ≠ some a) (o t : Finset Name) :
    personGeneProb p o (insert a t) = personGeneProb p o t := by
  unfold personGeneProb
  rw [get_number_genes_insert_two (fun he => h1 (Option.some.inj he)) o t,
    get_number_genes_insert_two h3 o t, get_number_genes_insert_two h2 o t]

theorem personTraitProb_insert_one {p : Person} {a : Name} (h1 : p.name ≠ a)
    (o t h : Finset Name) :
    personTraitProb p (insert a o) t h = personTraitProb p o t h := by
  unfold personTraitProb
  rw [get_number_genes_insert_one (fun he => h1 (Option.some.inj he)) o t]

theorem personTraitProb_insert_two {p : Person} {a : Name} (h1 : p.name ≠ a)
    (o t h : Finset Name) :
    personTraitProb p o (insert a t) h = personTraitProb p o t h := by
  unfold personTraitProb
  rw [get_number_genes_insert_two (fun he => h1 (Option.some.inj he)) o t]

theorem personTraitProb_insert_ht {p : Person} {a : Name} (h1 : p.name ≠ a)
    (o t h : Finset Name) :
    personTraitProb p o t (insert a h) = personTraitProb p o t h := by
  unfold personTraitProb
  simp [Finset.mem_insert, h1]

theorem joint_insert_one {rest : List Person} {a : Name}
    (hirrel : ∀ p ∈ rest, p.name ≠ a ∧ p.mother ≠ some a ∧ p.father ≠ some a)
    (o t h : Finset Name) :
    joint_probability rest (insert a o) t h = joint_probability rest o t h := by
  rw [joint_eq_prod, joint_eq_prod]
  congr 1
  apply List.map_congr_left
  intro p hp
  obtain ⟨h1, h2, h3⟩ := hirrel p hp
  rw [personGeneProb_insert_one h1 h2 h3, personTraitProb_insert_one h1]

theorem joint_insert_two {rest : List Person} {a : Name}
    (hirrel : ∀ p ∈ rest, p.name ≠ a ∧ p.mother ≠ some a ∧ p.father ≠ some a)
    (o t h : Finset Name) :
    joint_probability rest o (insert a t) h = joint_probability rest o t h := by
  rw [joint_eq_prod, joint_eq_prod]
  congr 1
  apply List.map_congr_left
  intro p hp
  obtain ⟨h1, h2, h3⟩ := hirrel p hp
  rw [personGeneProb_insert_two h1 h2 h3, personTraitProb_insert_two h1]

theorem joint_insert_ht {rest : List Person} {a : Name}
    (hirrel : ∀ p ∈ rest, p.name ≠ a ∧ p.mother ≠ some a ∧ p.father ≠ some a)
    (o t h : Finset Name) :
    joint_probability rest o t (insert a h) = joint_probability rest o t h := by
  rw [joint_eq_prod, joint_eq_prod]
  congr 1
  apply List.map_congr_left
  intro p hp
  obtain ⟨h1, _, _⟩ := hirrel p hp
  rw [personTraitProb_insert_ht h1]

theorem personTraitProb_pair (q : Person) (o t h : Finset Name) (hh : q.name ∉ h) :
    personTraitProb q o t h + personTraitProb q o t (insert q.name h) = 1 := by
  unfold personTraitProb
  rw [if_neg hh, if_pos (Finset.mem_insert_self _ _)]
  have := PROBS_trait_row_sum (get_number_genes_le_two (some q.name) o t)
  linarith

theorem personGeneProb_triple (q : Person) (o t : Finset Name)
    (hao : q.name ∉ o) (hat : q.name ∉ t)
    (hmself : q.mother ≠ some q.name) (hfself : q.father ≠ some q.name) :
    personGeneProb q o t + personGeneProb q (insert q.name o) t +
      personGeneProb q o (insert q.name t) = 1 := by
  have hown0 : get_number_genes (some q.name) o t = 0 := by
    simp [get_number_genes, optMem, hao, hat]
  have hown1 : get_number_genes (some q.name) (insert q.name o) t = 1 := by
    simp [get_number_genes, optMem]
  have hown2 : get_number_genes (some q.name) o (insert q.name t) = 2 := by
    simp [get_number_genes, optMem, hao]
  have hf1 := get_number_genes_insert_one hfself o t
  have hm1 := get_number_genes_insert_one hmself o t
  have hf2 := get_number_genes_insert_two hfself o t
  have hm2 := get_number_genes_insert_two hmself o t
  unfold personGeneProb
  rw [hown0, hown1, hown2, hf1, hm1, hf2, hm2]
  by_cases hp : q.mother = none ∧ q.father = none
  · rw [if_pos hp, if_pos hp, if_pos hp]
    norm_num [PROBS_gene]
  · rw [if_neg hp, if_neg hp, if_neg hp]
    norm_num
    ring

theorem six_term_sum (q : Person) (rest : List Person)
    (hirrel : ∀ p ∈ rest, p.name ≠ q.name ∧ p.mother ≠ some q.name ∧ p.father ≠ some q.name)
    (hmself : q.mother ≠ some q.name) (hfself : q.father ≠ some q.name)
    {o t h : Finset Name} (hao : q.name ∉ o) (hat : q.name ∉ t) (hah : q.name ∉ h) :
    joint_probability (q :: rest) o t h +
        joint_probability (q :: rest) o t (insert q.name h) +
      (joint_probability (q :: rest) o (insert q.name t) h +
        joint_probability (q :: rest) o (insert q.name t) (insert q.name h)) +
      (joint_probability (q :: rest) (insert q.name o) t h +
        joint_probability (q :: rest) (insert q.name o) t (insert q.name h)) =
      joint_probability rest o t h := by
  simp only [joint_cons]
  rw [joint_insert_ht hirrel o t h,
    joint_insert_two hirrel o t h,
    joint_insert_ht hirrel o (insert q.name t) h, joint_insert_two hirrel o t h,
    joint_insert_one hirrel o t h,
    joint_insert_ht hirrel (insert q.name o) t h, joint_insert_one hirrel o t h]
  have e1 := personTraitProb_pair q o t h hah
  have e2 := personTraitProb_pair q o (insert q.name t) h hah
  have e3 := personTraitProb_pair q (insert q.name o) t h hah
  have e4 := personGeneProb_triple q o t hao hat hmself hfself
  linear_combination (personGeneProb q o t * joint_probability rest o t h) * e1 +
    (personGeneProb q o (insert q.name t) * joint_probability rest o t h) * e2 +
    (personGeneProb q (insert q.name o) t * joint_probability rest o t h) * e3 +
    joint_probability rest o t h * e4

/-- Splitting the nested sum over `(one_gene, two_genes)` pairs when one more
name joins the universe: the new name lands in `one_gene`, in `two_genes`, or
in neither. -/
theorem sum_powerset_pair_insert {M : Finset Name} {a : Name} (ha : a ∉ M)
    (F : Finset Name → Finset Name → ℚ) :
    (∑ o ∈ (insert a M).powerset, ∑ t ∈ ((insert a M) \ o).powerset, F o t) =
      ∑ o ∈ M.powerset, ∑ t ∈ (M \ o).powerset,
        (F o t + F o (insert a t) + F (insert a o) t) := by
  rw [Finset.sum_powerset_insert ha]
  have h1 : (∑ o ∈ M.powerset, ∑ t ∈ ((insert a M) \ o).powerset, F o t) =
      ∑ o ∈ M.powerset, ∑ t ∈ (M \ o).powerset, (F o t + F o (insert a t)) := by
    apply Finset.sum_congr rfl
    intro o ho
    have hao : a ∉ o := fun hc => ha (Finset.mem_powerset.1 ho hc)
    have han : a ∉ M \ o := fun hc => ha (Finset.mem_sdiff.1 hc).1
    rw [Finset.insert_sdiff_of_not_mem M hao, Finset.sum_powerset_insert han,
      ← Finset.sum_add_distrib]
  have h2 : (∑ o ∈ M.powerset, ∑ t ∈ ((insert a M) \ insert a o).powerset, F (insert a o) t) =
      ∑ o ∈ M.powerset, ∑ t ∈ (M \ o).powerset, F (insert a o) t := by
    apply Finset.sum_congr rfl
    intro o ho
    have hsd : (insert a M) \ (insert a o) = M \ o := by
      ext x
      simp only [Finset.mem_sdiff, Finset.mem_insert, not_or]
      constructor
      · rintro ⟨hx1 | hx1, hx2, hx3⟩
        · exact absurd hx1 hx2
        · exact ⟨hx1, hx3⟩
      · rintro ⟨hxM, hxo⟩
        exact ⟨Or.inr hxM, fun he => ha (he ▸ hxM), hxo⟩
    rw [hsd]
  rw [h1, h2, ← Finset.sum_add_distrib]
  apply Finset.sum_congr rfl
  intro o _
  rw [← Finset.sum_add_distrib]

/-- Summing the joint probability over every `(one_gene, two_genes)` split and
every trait subset gives total mass 1, for a population with distinct names,
listed children-before-parents, and with nobody their own parent. -/
theorem sum_joint_ots :
    ∀ (people : List Person), (namesList people).Nodup →
      List.Pairwise (fun x y => y.mother ≠ some x.name ∧ y.father ≠ some x.name) people →
      (∀ p ∈ people, p.mother ≠ some p.name ∧ p.father ≠ some p.name) →
      (∑ o ∈ (namesList people).toFinset.powerset,
        ∑ t ∈ ((namesList people).toFinset \ o).powerset,
          ∑ h ∈ (namesList people).toFinset.powerset,
            joint_probability people o t h) = 1
  | [], _, _, _ => by
    simp [namesList, joint_probability]
  | q :: rest, hnd, hpw, hself => by
    have hnd' : (q.name :: namesList rest).Nodup := hnd
    have hq : q.name ∉ namesList rest := (List.nodup_cons.1 hnd').1
    have hqM : q.name ∉ (namesList rest).toFinset := fun hc => hq (List.mem_toFinset.1 hc)
    have hpw' := List.pairwise_cons.1 hpw
    have hirrel : ∀ p ∈ rest,
        p.name ≠ q.name ∧ p.mother ≠ some q.name ∧ p.father ≠ some q.name := by
      intro p hp
      refine ⟨fun he => hq (he ▸ List.mem_map.2 ⟨p, hp, rfl⟩), (hpw'.1 p hp).1, (hpw'.1 p hp).2⟩
    have hqself := hself q (List.mem_cons_self q rest)
    have hN : (namesList (q :: rest)).toFinset = insert q.name (namesList rest).toFinset := by
      simp [namesList]
    rw [hN, sum_powerset_pair_insert hqM]
    rw [← sum_joint_ots rest (List.nodup_cons.1 hnd').2 hpw'.2
      (fun p hp => hself p (List.mem_cons_of_mem q hp))]
    apply Finset.sum_congr rfl
    intro o ho
    apply Finset.sum_congr rfl
    intro t ht
    have hao : q.name ∉ o := fun hc => hqM (Finset.mem_powerset.1 ho hc)
    have hat : q.name ∉ t := fun hc =>
      hqM (Finset.mem_sdiff.1 (Finset.mem_powerset.1 ht hc)).1
    rw [Finset.sum_powerset_insert hqM, Finset.sum_powerset_insert hqM,
      Finset.sum_powerset_insert hqM, ← Finset.sum_add_distrib, ← Finset.sum_add_distrib,
      ← Finset.sum_add_distrib, ← Finset.sum_add_distrib, ← Finset.sum_add_distrib]
    apply Finset.sum_congr rfl
    intro h hh
    have hah : q.name ∉ h := fun hc => hqM (Finset.mem_powerset.1 hh hc)
    linarith [six_term_sum q rest hirrel hqself.1 hqself.2 hao hat hah]

theorem no_evidence_fails {people : List Person} (hnoev : ∀ p ∈ people, p.trait = none)
    (s : Finset Name) : fails_evidence people s = false := by
  unfold fails_evidence
  rw [List.any_eq_false]
  intro p hp
  rw [hnoev p hp]
  simp

/-- With no observed traits, the sum over the enumerated hypothesis list is
the triple powerset sum. -/
theorem enumerated_joint_sum_eq {people : List Person} (hnd : (namesList people).Nodup)
    (hnoev : ∀ p ∈ people, p.trait = none) :
    enumerated_joint_sum people =
      ∑ o ∈ (namesList people).toFinset.powerset,
        ∑ t ∈ ((namesList people).toFinset \ o).powerset,
          ∑ h ∈ (namesList people).toFinset.powerset,
            joint_probability people o t h := by
  unfold enumerated_joint_sum hypothesesList
  simp only [no_evidence_fails hnoev, Bool.false_eq_true, if_false]
  rw [List.map_flatMap, sum_flatMapM]
  have hstep : ((powersetL (namesList people)).map fun ht =>
        ((List.map (fun hyp => joint_probability people hyp.1 hyp.2.1 hyp.2.2)
          ((powersetL (namesList people)).flatMap fun og =>
            (powersetL ((namesList people).filter fun n => !decide (n ∈ og.toFinset))).map
              fun tg => (og.toFinset, tg.toFinset, ht.toFinset))).sum)) =
      (powersetL (namesList people)).map fun ht =>
        ∑ o ∈ (namesList people).toFinset.powerset,
          ∑ t ∈ ((namesList people).toFinset \ o).powerset,
            joint_probability people o t ht.toFinset := by
    apply List.map_congr_left
    intro ht _
    rw [List.map_flatMap, sum_flatMapM]
    have hinner : ((powersetL (namesList people)).map fun og =>
          ((List.map (fun hyp => joint_probability people hyp.1 hyp.2.1 hyp.2.2)
            ((powersetL ((namesList people).filter fun n => !decide (n ∈ og.toFinset))).map
              fun tg => (og.toFinset, tg.toFinset, ht.toFinset))).sum)) =
        (powersetL (namesList people)).map fun og =>
          ∑ t ∈ ((namesList people).toFinset \ og.toFinset).powerset,
            joint_probability people og.toFinset t ht.toFinset := by
      apply List.map_congr_left
      intro og _
      rw [List.map_map]
      have hcomp : ((fun hyp : Finset Name × Finset Name × Finset Name =>
            joint_probability people hyp.1 hyp.2.1 hyp.2.2) ∘
          fun tg : List Name => (og.toFinset, tg.toFinset, ht.toFinset)) =
          fun tg : List Name =>
            joint_probability people og.toFinset tg.toFinset ht.toFinset := rfl
      rw [hcomp,
        sum_powersetL (List.Nodup.filter _ hnd)
          (fun tF => joint_probability people og.toFinset tF ht.toFinset),
        toFinset_filter_not_mem]
    rw [hinner,
      sum_powersetL hnd (fun o => ∑ t ∈ ((namesList people).toFinset \ o).powerset,
        joint_probability people o t ht.toFinset)]
  rw [hstep,
    sum_powersetL hnd (fun h => ∑ o ∈ (namesList people).toFinset.powerset,
      ∑ t ∈ ((namesList people).toFinset \ o).powerset, joint_probability people o t h)]
  rw [Finset.sum_comm]
  apply Finset.sum_congr rfl
  intro o _
  rw [Finset.sum_comm]

theorem prob_of_passing_zero : prob_of_passing 0 = PROBS_mutation := rfl

theorem joint_perm {people people' : List Person} (hperm : List.Perm people people')
    (o t h : Finset Name) :
    joint_probability people o t h = joint_probability people' o t h := by
  rw [joint_eq_prod, joint_eq_prod]
  exact List.Perm.prod_eq (hperm.map _)

theorem get_number_genes_eq_one_iff (x : Name) (o t : Finset Name) :
    get_number_genes (some x) o t = 1 ↔ x ∈ o := by
  unfold get_number_genes optMem
  split_ifs with h1 h2 <;> simp_all

theorem get_number_genes_eq_two_iff (x : Name) (o t : Finset Name) :
    get_number_genes (some x) o t = 2 ↔ x ∉ o ∧ x ∈ t := by
  unfold get_number_genes optMem
  split_ifs with h1 h2 <;> simp_all

theorem hypothesesList_passes (people : List Person) :
    ∀ hyp ∈ hypothesesList people, fails_evidence people hyp.2.2 = false := by
  intro hyp hmem
  unfold hypothesesList at hmem
  rw [List.mem_flatMap] at hmem
  obtain ⟨ht, _, hmem2⟩ := hmem
  by_cases hf : fails_evidence people ht.toFinset = true
  · rw [if_pos hf] at hmem2
    exact absurd hmem2 (List.not_mem_nil hyp)
  · rw [if_neg hf] at hmem2
    rw [List.mem_flatMap] at hmem2
    obtain ⟨og, _, hmem3⟩ := hmem2
    obtain ⟨tg, _, rfl⟩ := List.mem_map.1 hmem3
    simpa using hf

/-! ### Claim theorems -/

/-- C1: For every person in a hypothesis, the joint-probability evaluator is
the product over people of a gene factor times a trait factor; the gene
factor is the unconditional prior entry at the assigned gene count when the
person has no recorded parents, and, when both parents are recorded, it is
the transmission formula built from each parent's passing probability
(mutation rate for 0 copies, one half for 1 copy, one minus the mutation
rate for 2 copies), with parent gene counts read from the same hypothesis. -/
theorem C1_evaluator_gene_probability (people : List Person) (o t h : Finset Name)
    (p : Person) :
    joint_probability people o t h =
      (people.map fun q => personGeneProb q o t * personTraitProb q o t h).prod ∧
    (p.mother = none ∧ p.father = none →
      personGeneProb p o t = PROBS_gene (get_number_genes (some p.name) o t)) ∧
    (prob_of_passing 0 = PROBS_mutation ∧ prob_of_passing 1 = 1/2 ∧
      prob_of_passing 2 = 1 - PROBS_mutation) ∧
    (∀ m f : Name, p.mother = some m → p.father = some f →
      ((get_number_genes (some p.name) o t = 0 →
        personGeneProb p o t =
          (1 - prob_of_passing (get_number_genes (some f) o t)) *
            (1 - prob_of_passing (get_number_genes (some m) o t))) ∧
      (get_number_genes (some p.name) o t = 1 →
        personGeneProb p o t =
          prob_of_passing (get_number_genes (some m) o t) *
              (1 - prob_of_passing (get_number_genes (some f) o t)) +
            prob_of_passing (get_number_genes (some f) o t) *
              (1 - prob_of_passing (get_number_genes (some m) o t))) ∧
      (get_number_genes (some p.name) o t = 2 →
        personGeneProb p o t =
          prob_of_passing (get_number_genes (some m) o t) *
            prob_of_passing (get_number_genes (some f) o t)))) := by
  refine ⟨joint_eq_prod people o t h, ?_, ⟨rfl, rfl, rfl⟩, ?_⟩
  · intro hp
    unfold personGeneProb
    rw [if_pos hp]
  · intro m f hm hf
    refine ⟨fun hc => ?_, fun hc => ?_, fun hc => ?_⟩ <;>
      · unfold personGeneProb
        rw [hm, hf, if_neg (by simp), hc]
        norm_num

/-- Witness for C1 at a concrete two-parent person with gene counts
child 0, mother 1, father 0. -/
theorem C1_witness :
    personGeneProb ⟨"c", some "m", some "f", none⟩ ({"m"} : Finset Name) ∅ =
      (1 - prob_of_passing (get_number_genes (some "f") ({"m"} : Finset Name) ∅)) *
        (1 - prob_of_passing (get_number_genes (some "m") ({"m"} : Finset Name) ∅)) :=
  ((C1_evaluator_gene_probability [] ({"m"} : Finset Name) ∅ ∅
      ⟨"c", some "m", some "f", none⟩).2.2.2 "m" "f" rfl rfl).1 (by decide)

/-- C2: For parent gene counts in {0,1,2}, the three derived child
probabilities (0, 1, 2 copies), built from the parents' passing
probabilities exactly as in `joint_probability`, sum to 1. -/
theorem C2_child_distribution_sums_to_one (fg mg : ℕ) (hf : fg ≤ 2) (hm : mg ≤ 2) :
    (1 - prob_of_passing fg) * (1 - prob_of_passing mg) +
      (prob_of_passing mg * (1 - prob_of_passing fg) +
        prob_of_passing fg * (1 - prob_of_passing mg)) +
      prob_of_passing mg * prob_of_passing fg = 1 := by
  ring

/-- Witness for C2 at parent counts (0, 1). -/
theorem C2_witness :
    (1 - prob_of_passing 0) * (1 - prob_of_passing 1) +
      (prob_of_passing 1 * (1 - prob_of_passing 0) +
        prob_of_passing 0 * (1 - prob_of_passing 1)) +
      prob_of_passing 1 * prob_of_passing 0 = 1 :=
  C2_child_distribution_sums_to_one 0 1 (by norm_num) (by norm_num)

/-- C10: For a person with exactly one recorded parent the evaluator does not
fall back to the unconditional prior: the missing parent is looked up as
`None`, gets gene count 0, hence passing probability equal to the mutation
rate, and the two-parent transmission formula is applied. -/
theorem C10_single_parent_transmission (p : Person) (o t : Finset Name) :
    (get_number_genes none o t = 0 ∧ prob_of_passing 0 = PROBS_mutation) ∧
    (∀ m : Name, p.mother = some m → p.father = none →
      ((get_number_genes (some p.name) o t = 0 →
        personGeneProb p o t =
          (1 - PROBS_mutation) *
            (1 - prob_of_passing (get_number_genes (some m) o t))) ∧
      (get_number_genes (some p.name) o t = 1 →
        personGeneProb p o t =
          prob_of_passing (get_number_genes (some m) o t) * (1 - PROBS_mutation) +
            PROBS_mutation * (1 - prob_of_passing (get_number_genes (some m) o t))) ∧
      (get_number_genes (some p.name) o t = 2 →
        personGeneProb p o t =
          prob_of_passing (get_number_genes (some m) o t) * PROBS_mutation))) ∧
    (∀ f : Name, p.father = some f → p.mother = none →
      ((get_number_genes (some p.name) o t = 0 →
        personGeneProb p o t =
          (1 - prob_of_passing (get_number_genes (some f) o t)) *
            (1 - PROBS_mutation)) ∧
      (get_number_genes (some p.name) o t = 1 →
        personGeneProb p o t =
          PROBS_mutation * (1 - prob_of_passing (get_number_genes (some f) o t)) +
            prob_of_passing (get_number_genes (some f) o t) * (1 - PROBS_mutation)) ∧
      (get_number_genes (some p.name) o t = 2 →
        personGeneProb p o t =
          PROBS_mutation * prob_of_passing (get_number_genes (some f) o t)))) := by
  refine ⟨⟨rfl, rfl⟩, ?_, ?_⟩
  · intro m hm hf
    refine ⟨fun hc => ?_, fun hc => ?_, fun hc => ?_⟩ <;>
      · unfold personGeneProb
        rw [hm, hf, if_neg (by simp), hc, get_number_genes_none, prob_of_passing_zero]
        norm_num
  · intro f hf hm
    refine ⟨fun hc => ?_, fun hc => ?_, fun hc => ?_⟩ <;>
      · unfold personGeneProb
        rw [hm, hf, if_neg (by simp), hc, get_number_genes_none, prob_of_passing_zero]
        norm_num

/-- Witness for C10: mother present with 1 copy, father missing, child with
0 copies. -/
theorem C10_witness :
    personGeneProb ⟨"c", some "m", none, none⟩ ({"m"} : Finset Name) ∅ =
      (1 - PROBS_mutation) *
        (1 - prob_of_passing (get_number_genes (some "m") ({"m"} : Finset Name) ∅)) :=
  ((C10_single_parent_transmission ⟨"c", some "m", none, none⟩
      ({"m"} : Finset Name) ∅).2.1 "m" rfl rfl).1 (by decide)

/-- C9: One accumulator update adds the joint probability `p` to exactly one
gene bucket (the one matching the hypothesis's gene count) and exactly one
trait bucket (matching trait-set membership) of every person in the
dictionary, leaves all other buckets and all other names unchanged, and with
`0 ≤ p` never decreases any bucket. -/
theorem C9_update_frame (probs : Name → Dist) (people : List Person)
    (o t h : Finset Name) (p : ℚ) (n : Name) (hn : n ∈ namesList people) :
    get_number_genes (some n) o t ≤ 2 ∧
    (update probs (namesList people) o t h p n).gene0 =
      (probs n).gene0 + (if get_number_genes (some n) o t = 0 then p else 0) ∧
    (update probs (namesList people) o t h p n).gene1 =
      (probs n).gene1 + (if get_number_genes (some n) o t = 1 then p else 0) ∧
    (update probs (namesList people) o t h p n).gene2 =
      (probs n).gene2 + (if get_number_genes (some n) o t = 2 then p else 0) ∧
    (update probs (namesList people) o t h p n).traitT =
      (probs n).traitT + (if n ∈ h then p else 0) ∧
    (update probs (namesList people) o t h p n).traitF =
      (probs n).traitF + (if n ∈ h then 0 else p) ∧
    (∀ m, m ∉ namesList people → update probs (namesList people) o t h p m = probs m) ∧
    (0 ≤ p →
      (probs n).gene0 ≤ (update probs (namesList people) o t h p n).gene0 ∧
      (probs n).gene1 ≤ (update probs (namesList people) o t h p n).gene1 ∧
      (probs n).gene2 ≤ (update probs (namesList people) o t h p n).gene2 ∧
      (probs n).traitT ≤ (update probs (namesList people) o t h p n).traitT ∧
      (probs n).traitF ≤ (update probs (namesList people) o t h p n).traitF) := by
  refine ⟨get_number_genes_le_two (some n) o t, ?_, ?_, ?_, ?_, ?_, ?_, ?_⟩
  · simp only [update, updateDist, if_pos hn]
    split_ifs <;> ring
  · simp only [update, updateDist, if_pos hn]
    split_ifs <;> ring
  · simp only [update, updateDist, if_pos hn]
    split_ifs <;> ring
  · simp only [update, updateDist, if_pos hn]
    split_ifs <;> ring
  · simp only [update, updateDist, if_pos hn]
    split_ifs <;> ring
  · intro m hm
    simp only [update, if_neg hm]
  · intro hp
    refine ⟨?_, ?_, ?_, ?_, ?_⟩ <;>
      · simp only [update, updateDist, if_pos hn]
        split_ifs <;> linarith

/-- Witness for C9 on a one-person dictionary. -/
theorem C9_witness :
    (update (fun _ => initDist) (namesList [⟨"a", none, none, none⟩]) ∅ ∅ ∅ 1 "a").gene0 =
      (initDist).gene0 + (if get_number_genes (some "a") ∅ ∅ = 0 then 1 else 0) :=
  (C9_update_frame (fun _ => initDist) [⟨"a", none, none, none⟩] ∅ ∅ ∅ 1 "a"
    (by decide)).2.1

/-- Normalization contract for one dictionary entry with non-negative values
and positive totals. -/
theorem normalizeAll_entry_props (keys : List Name) (probs : Name → Dist) (n : Name)
    (hn : n ∈ keys)
    (h00 : 0 ≤ (probs n).gene0) (h01 : 0 ≤ (probs n).gene1) (h02 : 0 ≤ (probs n).gene2)
    (h0T : 0 ≤ (probs n).traitT) (h0F : 0 ≤ (probs n).traitF)
    (hg : 0 < geneTotal (probs n)) (ht : 0 < traitTotal (probs n)) :
    (normalizeAll keys probs n).gene0 + (normalizeAll keys probs n).gene1 +
        (normalizeAll keys probs n).gene2 = 1 ∧
    (normalizeAll keys probs n).traitT + (normalizeAll keys probs n).traitF = 1 ∧
    (0 ≤ (normalizeAll keys probs n).gene0 ∧ 0 ≤ (normalizeAll keys probs n).gene1 ∧
      0 ≤ (normalizeAll keys probs n).gene2 ∧ 0 ≤ (normalizeAll keys probs n).traitT ∧
      0 ≤ (normalizeAll keys probs n).traitF) ∧
    ((normalizeAll keys probs n).gene0 * geneTotal (probs n) = (probs n).gene0 ∧
      (normalizeAll keys probs n).gene1 * geneTotal (probs n) = (probs n).gene1 ∧
      (normalizeAll keys probs n).gene2 * geneTotal (probs n) = (probs n).gene2 ∧
      (normalizeAll keys probs n).traitT * traitTotal (probs n) = (probs n).traitT ∧
      (normalizeAll keys probs n).traitF * traitTotal (probs n) = (probs n).traitF) := by
  have hgne := ne_of_gt hg
  have htne := ne_of_gt ht
  simp only [normalizeAll, if_pos hn, norm_dist]
  refine ⟨?_, ?_, ⟨?_, ?_, ?_, ?_, ?_⟩, ?_, ?_, ?_, ?_, ?_⟩
  · rw [div_add_div_same, div_add_div_same, div_eq_one_iff_eq hgne]
    unfold geneTotal
    ring
  · rw [div_add_div_same, div_eq_one_iff_eq htne]
    unfold traitTotal
    ring
  · exact div_nonneg h00 (le_of_lt hg)
  · exact div_nonneg h01 (le_of_lt hg)
  · exact div_nonneg h02 (le_of_lt hg)
  · exact div_nonneg h0T (le_of_lt ht)
  · exact div_nonneg h0F (le_of_lt ht)
  · exact div_mul_cancel₀ _ hgne
  · exact div_mul_cancel₀ _ hgne
  · exact div_mul_cancel₀ _ hgne
  · exact div_mul_cancel₀ _ htne
  · exact div_mul_cancel₀ _ htne

/-- The hypothesis whose trait set is exactly the observed trait-positive
people (and whose gene sets are empty) is always enumerated — the evidence
filter cannot reject it when names are distinct. -/
theorem trueNames_hyp_mem (people : List Person) (hnd : (namesList people).Nodup) :
    ((([] : List Name).toFinset, ([] : List Name).toFinset,
      ((people.filter fun p => decide (p.trait = some true)).map Person.name).toFinset) ∈
      hypothesesList people) := by
  have hsub : List.Sublist
      ((people.filter fun p => decide (p.trait = some true)).map Person.name)
      (namesList people) :=
    List.Sublist.map Person.name (List.filter_sublist people)
  have hpass : fails_evidence people
      ((people.filter fun p => decide (p.trait = some true)).map Person.name).toFinset =
      false := by
    unfold fails_evidence
    rw [List.any_eq_false]
    intro p hp
    cases htr : p.trait with
    | none => simp [htr]
    | some b =>
      have hiff : p.name ∈
          ((people.filter fun p => decide (p.trait = some true)).map Person.name).toFinset ↔
          b = true := by
        rw [List.mem_toFinset]
        constructor
        · intro hmem
          obtain ⟨q, hq, hqname⟩ := List.mem_map.1 hmem
          have hq2 := List.mem_filter.1 hq
          have hq3 : q.trait = some true := by simpa using hq2.2
          have hqp : q = p := List.inj_on_of_nodup_map hnd hq2.1 hp hqname
          have hpt : p.trait = some true := hqp ▸ hq3
          rw [htr] at hpt
          exact (Option.some.inj hpt)
        · intro hbt
          subst hbt
          exact List.mem_map_of_mem Person.name
            (List.mem_filter.2 ⟨hp, by simp [htr]⟩)
      simp only [htr]
      cases b with
      | true =>
        have hm := hiff.2 rfl
        simp [hm]
      | false =>
        have hm : p.name ∉
            ((people.filter fun p => decide (p.trait = some true)).map Person.name).toFinset :=
          fun hmem => by simpa using hiff.1 hmem
        simp [hm]
  unfold hypothesesList
  rw [List.mem_flatMap]
  refine ⟨(people.filter fun p => decide (p.trait = some true)).map Person.name,
    mem_powersetL.2 hsub, ?_⟩
  simp only [hpass, Bool.false_eq_true, if_false]
  rw [List.mem_flatMap]
  refine ⟨[], mem_powersetL.2 (List.nil_sublist _), ?_⟩
  exact List.mem_map.2 ⟨[], mem_powersetL.2 (List.nil_sublist _), rfl⟩

/-- Every bucket of the running accumulator stays non-negative: each update
only ever adds a (positive) joint probability. -/
theorem accumulate_nonneg_aux (people : List Person) (n : Name) :
    ∀ (hyps : List (Finset Name × Finset Name × Finset Name)) (probs : Name → Dist),
      0 ≤ (probs n).gene0 → 0 ≤ (probs n).gene1 → 0 ≤ (probs n).gene2 →
      0 ≤ (probs n).traitT → 0 ≤ (probs n).traitF →
      (0 ≤ ((hyps.foldl
          (fun probs hyp =>
            update probs (namesList people) hyp.1 hyp.2.1 hyp.2.2
              (joint_probability people hyp.1 hyp.2.1 hyp.2.2))
          probs) n).gene0 ∧
        0 ≤ ((hyps.foldl
          (fun probs hyp =>
            update probs (namesList people) hyp.1 hyp.2.1 hyp.2.2
              (joint_probability people hyp.1 hyp.2.1 hyp.2.2))
          probs) n).gene1 ∧
        0 ≤ ((hyps.foldl
          (fun probs hyp =>
            update probs (namesList people) hyp.1 hyp.2.1 hyp.2.2
              (joint_probability people hyp.1 hyp.2.1 hyp.2.2))
          probs) n).gene2 ∧
        0 ≤ ((hyps.foldl
          (fun probs hyp =>
            update probs (namesList people) hyp.1 hyp.2.1 hyp.2.2
              (joint_probability people hyp.1 hyp.2.1 hyp.2.2))
          probs) n).traitT ∧
        0 ≤ ((hyps.foldl
          (fun probs hyp =>
            update probs (namesList people) hyp.1 hyp.2.1 hyp.2.2
              (joint_probability people hyp.1 hyp.2.1 hyp.2.2))
          probs) n).traitF)
  | [], probs => by
    intro h0 h1 h2 h3 h4
    exact ⟨h0, h1, h2, h3, h4⟩
  | hyp :: hyps, probs => by
    intro h0 h1 h2 h3 h4
    rw [List.foldl_cons]
    have hj := le_of_lt (joint_probability_pos people hyp.1 hyp.2.1 hyp.2.2)
    apply accumulate_nonneg_aux people n hyps <;>
      · by_cases hn : n ∈ namesList people
        · simp only [update, updateDist, if_pos hn]
          split_ifs <;> linarith
        · simp only [update, if_neg hn]
          assumption

/-- C4: After normalization runs exactly once at the end of processing, every
person's gene distribution sums to 1 and trait distribution sums to 1, all
values are non-negative, and each normalized value times the distribution's
accumulated total recovers the accumulated value, so relative proportions are
unchanged. -/
theorem C4_normalized_distributions (people : List Person)
    (hnd : (namesList people).Nodup) (n : Name) (hn : n ∈ namesList people) :
    ((finalProbs people n).gene0 + (finalProbs people n).gene1 +
      (finalProbs people n).gene2 = 1) ∧
    ((finalProbs people n).traitT + (finalProbs people n).traitF = 1) ∧
    (0 ≤ (finalProbs people n).gene0 ∧ 0 ≤ (finalProbs people n).gene1 ∧
      0 ≤ (finalProbs people n).gene2 ∧ 0 ≤ (finalProbs people n).traitT ∧
      0 ≤ (finalProbs people n).traitF) ∧
    ((finalProbs people n).gene0 * geneTotal (runAccumulate people n) =
        (runAccumulate people n).gene0 ∧
      (finalProbs people n).gene1 * geneTotal (runAccumulate people n) =
        (runAccumulate people n).gene1 ∧
      (finalProbs people n).gene2 * geneTotal (runAccumulate people n) =
        (runAccumulate people n).gene2 ∧
      (finalProbs people n).traitT * traitTotal (runAccumulate people n) =
        (runAccumulate people n).traitT ∧
      (finalProbs people n).traitF * traitTotal (runAccumulate people n) =
        (runAccumulate people n).traitF) := by
  have hmem := trueNames_hyp_mem people hnd
  have hsum : 0 < ((hypothesesList people).map fun hyp =>
      joint_probability people hyp.1 hyp.2.1 hyp.2.2).sum := by
    apply List.sum_pos
    · intro x hx
      obtain ⟨hyp, _, rfl⟩ := List.mem_map.1 hx
      exact joint_probability_pos people hyp.1 hyp.2.1 hyp.2.2
    · exact List.ne_nil_of_mem (List.mem_map_of_mem _ hmem)
  have hg : 0 < geneTotal (runAccumulate people n) := by
    unfold runAccumulate
    rw [geneTotal_accumulate people _ n hn]
    exact hsum
  have ht : 0 < traitTotal (runAccumulate people n) := by
    unfold runAccumulate
    rw [traitTotal_accumulate people _ n hn]
    exact hsum
  have hnn := accumulate_nonneg_aux people n (hypothesesList people) (fun _ => initDist)
    (le_refl 0) (le_refl 0) (le_refl 0) (le_refl 0) (le_refl 0)
  exact normalizeAll_entry_props (namesList people) (runAccumulate people) n hn
    hnn.1 hnn.2.1 hnn.2.2.1 hnn.2.2.2.1 hnn.2.2.2.2 hg ht

/-- Witness for C4 on a one-person population. -/
theorem C4_witness :
    (finalProbs [⟨"a", none, none, none⟩] "a").gene0 +
        (finalProbs [⟨"a", none, none, none⟩] "a").gene1 +
        (finalProbs [⟨"a", none, none, none⟩] "a").gene2 = 1 :=
  (C4_normalized_distributions [⟨"a", none, none, none⟩] (by decide) "a" (by decide)).1

/-- C5: Every enumerated hypothesis passes the evidence check, and for a
person with an observed trait value the accumulated total in the opposite
trait bucket equals 0 after any number of accumulator updates (hence also
just before normalization). -/
theorem C5_observed_trait_zero_opposite (people : List Person) (p : Person)
    (hp : p ∈ people) (b : Bool) (hb : p.trait = some b) (k : ℕ) :
    (∀ hyp ∈ hypothesesList people, fails_evidence people hyp.2.2 = false) ∧
    traitBucket (accumulate people ((hypothesesList people).take k) p.name) (!b) = 0 := by
  refine ⟨hypothesesList_passes people, ?_⟩
  unfold accumulate
  rw [traitBucket_foldl_opposite people p hp b hb _ _
    (fun hyp hhyp => hypothesesList_passes people hyp (List.take_subset k _ hhyp))]
  cases b <;> rfl

/-- Witness for C5: one person observed trait-positive; after two updates the
`False` bucket is still zero. -/
theorem C5_witness :
    traitBucket (accumulate [⟨"a", none, none, some true⟩]
      ((hypothesesList [⟨"a", none, none, some true⟩]).take 2) "a") (!true) = 0 :=
  (C5_observed_trait_zero_opposite [⟨"a", none, none, some true⟩]
    ⟨"a", none, none, some true⟩ (by decide) true rfl 2).2

/-- C6: Every joint probability the evaluator can produce is strictly
positive, and for a non-empty population with distinct names every person's
accumulated gene total and trait total is strictly positive when `normalize`
runs, so its divisions never divide by zero. -/
theorem C6_no_division_by_zero (people : List Person) (hne : people ≠ [])
    (hnd : (namesList people).Nodup) :
    (∀ o t h : Finset Name, 0 < joint_probability people o t h) ∧
    (∀ n ∈ namesList people,
      (0 < geneTotal (runAccumulate people n) ∧ geneTotal (runAccumulate people n) ≠ 0) ∧
      (0 < traitTotal (runAccumulate people n) ∧ traitTotal (runAccumulate people n) ≠ 0)) := by
  have hmem := trueNames_hyp_mem people hnd
  have hsum : 0 < ((hypothesesList people).map fun hyp =>
      joint_probability people hyp.1 hyp.2.1 hyp.2.2).sum := by
    apply List.sum_pos
    · intro x hx
      obtain ⟨hyp, _, rfl⟩ := List.mem_map.1 hx
      exact joint_probability_pos people hyp.1 hyp.2.1 hyp.2.2
    · exact List.ne_nil_of_mem (List.mem_map_of_mem _ hmem)
  refine ⟨fun o t h => joint_probability_pos people o t h, fun n hn => ?_⟩
  unfold runAccumulate
  rw [geneTotal_accumulate people _ n hn, traitTotal_accumulate people _ n hn]
  exact ⟨⟨hsum, ne_of_gt hsum⟩, hsum, ne_of_gt hsum⟩

/-- Witness for C6 on a single founder. -/
theorem C6_witness :
    0 < geneTotal (runAccumulate [⟨"a", none, none, none⟩] "a") :=
  (((C6_no_division_by_zero [⟨"a", none, none, none⟩] (by decide) (by decide)).2
    "a" (by decide)).1).1

/-- C7: For a duplicate-free name list, the powerset enumerator lists 2^n
subset candidates, one per subset of the population; the two inner loops list
3^n `(one_gene, two_genes)` pairs, exactly the disjoint pairs, each once; and
distinct pairs induce distinct gene assignments. -/
theorem C7_enumeration_complete (l : List Name) (hnd : l.Nodup) :
    (powersetL l).length = 2 ^ l.length ∧
    ((powersetL l).map List.toFinset).Nodup ∧
    (∀ s : Finset Name, s ∈ (powersetL l).map List.toFinset ↔ s ⊆ l.toFinset) ∧
    (geneSplits l).Nodup ∧
    (∀ o t : Finset Name, (o, t) ∈ geneSplits l ↔ o ⊆ l.toFinset ∧ t ⊆ l.toFinset \ o) ∧
    (geneSplits l).length = 3 ^ l.length ∧
    (∀ o t o' t' : Finset Name, o ⊆ l.toFinset → t ⊆ l.toFinset \ o →
      o' ⊆ l.toFinset → t' ⊆ l.toFinset \ o' →
      (∀ n ∈ l.toFinset, get_number_genes (some n) o t = get_number_genes (some n) o' t') →
      o = o' ∧ t = t') := by
  refine ⟨length_powersetL l, nodup_powersetL_toFinset hnd, fun s => mem_powersetL_toFinset,
    nodup_geneSplits hnd, fun o t => mem_geneSplits, length_geneSplits hnd, ?_⟩
  intro o t o' t' ho hto ho' hto' hcount
  have hoe : o = o' := by
    ext x
    by_cases hx : x ∈ l.toFinset
    · rw [← get_number_genes_eq_one_iff x o t, ← get_number_genes_eq_one_iff x o' t',
        hcount x hx]
    · exact ⟨fun hxo => absurd (ho hxo) hx, fun hxo => absurd (ho' hxo) hx⟩
  subst hoe
  refine ⟨rfl, ?_⟩
  ext x
  by_cases hx : x ∈ l.toFinset
  · constructor
    · intro hxt
      have hxo : x ∉ o := (Finset.mem_sdiff.1 (hto hxt)).2
      have h2 : get_number_genes (some x) o t' = 2 := by
        rw [← hcount x hx]
        exact (get_number_genes_eq_two_iff x o t).2 ⟨hxo, hxt⟩
      exact ((get_number_genes_eq_two_iff x o t').1 h2).2
    · intro hxt
      have hxo : x ∉ o := (Finset.mem_sdiff.1 (hto' hxt)).2
      have h2 : get_number_genes (some x) o t = 2 := by
        rw [hcount x hx]
        exact (get_number_genes_eq_two_iff x o t').2 ⟨hxo, hxt⟩
      exact ((get_number_genes_eq_two_iff x o t).1 h2).2
  · exact ⟨fun hxt => absurd (Finset.mem_sdiff.1 (hto hxt)).1 hx,
      fun hxt => absurd (Finset.mem_sdiff.1 (hto' hxt)).1 hx⟩

/-- Witness for C7 on a two-person population. -/
theorem C7_witness :
    (powersetL ["a", "b"]).length = 2 ^ 2 ∧ (geneSplits ["a", "b"]).length = 3 ^ 2 :=
  ⟨(C7_enumeration_complete ["a", "b"] (by decide)).1,
    (C7_enumeration_complete ["a", "b"] (by decide)).2.2.2.2.2.1⟩

/-- C3 counterexample: with trait evidence present, the sum of the joint
probability over the hypotheses that pass the filter and are scored is the
probability of the evidence, not 1.  For a single person with observed trait
`True` the enumerated sum is 329/10000. -/
theorem C3_counterexample :
    enumerated_joint_sum [⟨"a", none, none, some true⟩] ≠ 1 := by
  norm_num [enumerated_joint_sum, hypothesesList, powersetL, namesList, fails_evidence, update, updateDist,
    initDist, joint_probability, personGeneProb, personTraitProb, get_number_genes, optMem,
    prob_of_passing, PROBS_gene, PROBS_trait, PROBS_mutation, List.sublistsLen_succ_cons,
    List.range_succ]

/-- C3 (amended): For a population with distinct names, whose parent
relation admits a children-before-parents ordering with nobody their own
parent, and with no observed trait values (so the evidence filter skips
nothing), the sum of the joint probability over all enumerated hypotheses
equals 1. -/
theorem C3_total_probability (people : List Person)
    (hnd : (namesList people).Nodup)
    (hnoev : ∀ p ∈ people, p.trait = none)
    (hdag : ∃ people' : List Person, List.Perm people people' ∧
      List.Pairwise (fun x y => y.mother ≠ some x.name ∧ y.father ≠ some x.name) people' ∧
      (∀ p ∈ people', p.mother ≠ some p.name ∧ p.father ≠ some p.name)) :
    enumerated_joint_sum people = 1 := by
  obtain ⟨people', hperm, hpw, hself⟩ := hdag
  rw [enumerated_joint_sum_eq hnd hnoev]
  have hnames : List.Perm (namesList people) (namesList people') := hperm.map Person.name
  have hndF : (namesList people').Nodup := hnames.nodup_iff.1 hnd
  have hNF : (namesList people).toFinset = (namesList people').toFinset := by
    ext x
    simp only [List.mem_toFinset]
    exact hnames.mem_iff
  rw [hNF]
  rw [← sum_joint_ots people' hndF hpw hself]
  apply Finset.sum_congr rfl
  intro o _
  apply Finset.sum_congr rfl
  intro t _
  apply Finset.sum_congr rfl
  intro h _
  exact joint_perm hperm o t h

/-- Witness for the amended C3: a three-person family, child listed first. -/
theorem C3_witness :
    enumerated_joint_sum [⟨"c", some "m", some "f", none⟩, ⟨"m", none, none, none⟩,
      ⟨"f", none, none, none⟩] = 1 :=
  C3_total_probability
    [⟨"c", some "m", some "f", none⟩, ⟨"m", none, none, none⟩, ⟨"f", none, none, none⟩]
    (by decide) (by decide)
    ⟨[⟨"c", some "m", some "f", none⟩, ⟨"m", none, none, none⟩, ⟨"f", none, none, none⟩],
      List.Perm.refl _, by decide, by decide⟩

/-- C8 counterexample: for the single person with no parents and unknown
trait, the final trait posterior at `True` is not 0.0365; the spec's figure
mis-evaluates its own expression 0.96·0.01 + 0.03·0.56 + 0.01·0.65. -/
theorem C8_counterexample :
    (finalProbs [⟨"harry", none, none, none⟩] "harry").traitT ≠ 365/10000 := by
  norm_num [finalProbs, normalizeAll, norm_dist, geneTotal, traitTotal, runAccumulate,
    accumulate, hypothesesList, powersetL, namesList, fails_evidence, update, updateDist,
    initDist, joint_probability, personGeneProb, personTraitProb, get_number_genes, optMem,
    prob_of_passing, PROBS_gene, PROBS_trait, PROBS_mutation, List.sublistsLen_succ_cons,
    List.range_succ]

set_option maxHeartbeats 2000000 in
/-- C8 (amended): for a single person with no parents and unknown trait the
final gene posterior is exactly the unconditional prior, and the trait
posterior is the prior-weighted marginal 0.96·0.01 + 0.03·0.56 + 0.01·0.65 =
0.0329, with P(trait=False) = 0.9671. -/
theorem C8_single_person_posterior :
    (finalProbs [⟨"harry", none, none, none⟩] "harry").gene0 = 96/100 ∧
    (finalProbs [⟨"harry", none, none, none⟩] "harry").gene1 = 3/100 ∧
    (finalProbs [⟨"harry", none, none, none⟩] "harry").gene2 = 1/100 ∧
    (finalProbs [⟨"harry", none, none, none⟩] "harry").traitT =
      (96/100) * (1/100) + (3/100) * (56/100) + (1/100) * (65/100) ∧
    (finalProbs [⟨"harry", none, none, none⟩] "harry").traitT = 329/10000 ∧
    (finalProbs [⟨"harry", none, none, none⟩] "harry").traitF = 9671/10000 := by
  refine ⟨?_, ?_, ?_, ?_, ?_, ?_⟩ <;>
    norm_num [finalProbs, normalizeAll, norm_dist, geneTotal, traitTotal, runAccumulate,
    accumulate, hypothesesList, powersetL, namesList, fails_evidence, update, updateDist,
    initDist, joint_probability, personGeneProb, personTraitProb, get_number_genes, optMem,
    prob_of_passing, PROBS_gene, PROBS_trait, PROBS_mutation, List.sublistsLen_succ_cons,
    List.range_succ]

end Heredity
